import Mathlib

/-!
Verification of several components of a computer-algebra repository against
their natural-language specification, via a shallow embedding in Lean 4.

The embedded components are:

* `FusionDouble` (`src/sage/algebras/fusion_rings/fusion_double.py`):
  the fusion ring of the Drinfeld double of a finite group; S-matrix,
  fusion coefficients, quantum dimensions, roots of unity.
* `FiniteDrinfeldModule`
  (`src/sage/rings/function_field/drinfeld_modules/finite_drinfeld_module.py`):
  rank-two guard behaviour of the Frobenius-related methods.
* `DrinfeldModuleHomset`
  (`src/sage/rings/function_field/drinfeld_modules/homset.py`): membership test.
* `Subcrystal` (`src/sage/combinat/crystals/subcrystal.py`): induced crystal
  operators.
* `DrinfeldModularForms` (`src/sage/modular/drinfeld_modform/ring.py`):
  coefficient forms and their input validation.
* `generating_function_of_polyhedron`
  (`src/sage/geometry/polyhedron/generating_function.py`): the splitting of a
  polyhedron along coordinate orderings, and `compositions_mod`.

Python exceptions are modelled by an explicit error type and `Except`;
machine-level behaviour does not occur in this code (all arithmetic in the
source is exact symbolic arithmetic).
-/

/-- Model of the Python exception classes that occur in the embedded code. -/
inductive PyErr where
  | notImplementedError (msg : String)
  | valueError (msg : String)
  | typeError (msg : String)
  | attributeError (msg : String)
  | other (msg : String)
  deriving DecidableEq

namespace FiniteDrinfeldModule

/-- Model of a `FiniteDrinfeldModule`.  The claims under verification only
concern the rank-two precondition checks of the Frobenius-related methods, so
the substrate-computed values (the Frobenius endomorphism's defining degree,
the Frobenius norm and trace, and the divisibility test used by
`is_supersingular`) are carried as abstract payloads.

Modelled from the spec: the parent class `DrinfeldModule` (which provides
`_check_rank_two` and the Ore-polynomial substrate) is not under `src/`; per
the spec's error-handling section, a rank check failure is surfaced as an
immediate `NotImplementedError` whose message is "rank must be two". -/
structure Model where
  rank : ℕ
  base_degree : ℕ
  norm_payload : ℤ
  trace_payload : ℤ
  char_divides_trace : Bool
  deriving DecidableEq

/-- Modelled from the spec: `DrinfeldModule._check_rank_two` (not under
`src/`) raises `NotImplementedError("rank must be two")` when the rank
differs from two and otherwise does nothing. -/
def check_rank_two (φ : Model) : Except PyErr Unit :=
  if φ.rank = 2 then Except.ok () else
    Except.error (PyErr.notImplementedError "rank must be two")

/-- Embedding of `FiniteDrinfeldModule.frobenius_endomorphism`: the body
performs no rank check and returns the morphism defined by `t^deg` where
`deg` is the degree of the base ring over `F_q`. -/
def frobenius_endomorphism (φ : Model) : Except PyErr ℕ :=
  Except.ok φ.base_degree

/-- Embedding of `FiniteDrinfeldModule.frobenius_norm`: rank check, then the
substrate computation of the norm. -/
def frobenius_norm (φ : Model) : Except PyErr ℤ :=
  match check_rank_two φ with
  | Except.error e => Except.error e
  | Except.ok _ => Except.ok φ.norm_payload

/-- Embedding of `FiniteDrinfeldModule.frobenius_trace`: rank check, then the
norm, then the substrate inversion producing the trace. -/
def frobenius_trace (φ : Model) : Except PyErr ℤ :=
  match check_rank_two φ with
  | Except.error e => Except.error e
  | Except.ok _ =>
    match frobenius_norm φ with
    | Except.error e => Except.error e
    | Except.ok _B => Except.ok φ.trace_payload

/-- Embedding of `FiniteDrinfeldModule.frobenius_charpoly`: rank check, then
`S([frobenius_norm, -frobenius_trace, 1])`, modelled as the pair of
nonleading coefficients. -/
def frobenius_charpoly (φ : Model) : Except PyErr (ℤ × ℤ) :=
  match check_rank_two φ with
  | Except.error e => Except.error e
  | Except.ok _ =>
    match frobenius_norm φ with
    | Except.error e => Except.error e
    | Except.ok B =>
      match frobenius_trace φ with
      | Except.error e => Except.error e
      | Except.ok A => Except.ok (B, -A)

/-- Embedding of `FiniteDrinfeldModule.is_supersingular`: rank check, then
the divisibility test of the trace by the characteristic. -/
def is_supersingular (φ : Model) : Except PyErr Bool :=
  match check_rank_two φ with
  | Except.error e => Except.error e
  | Except.ok _ =>
    match frobenius_trace φ with
    | Except.error e => Except.error e
    | Except.ok _A => Except.ok φ.char_divides_trace

/-- Embedding of `FiniteDrinfeldModule.is_ordinary`: rank check, then the
negation of `is_supersingular`. -/
def is_ordinary (φ : Model) : Except PyErr Bool :=
  match check_rank_two φ with
  | Except.error e => Except.error e
  | Except.ok _ =>
    match is_supersingular φ with
    | Except.error e => Except.error e
    | Except.ok b => Except.ok !b

/-- A concrete finite Drinfeld module model of rank 1. -/
def phi_rank_one : Model := ⟨1, 2, 0, 0, false⟩

/-- A concrete finite Drinfeld module model of rank 2. -/
def phi_rank_two : Model := ⟨2, 2, 3, 5, true⟩

/-- C4 counterexample: for the rank-1 module, `frobenius_endomorphism`
succeeds (its body never calls `_check_rank_two`), contradicting the claim
that every one of the six methods raises `NotImplementedError` whenever the
rank is not two. -/
theorem frobenius_endomorphism_no_rank_check :
    phi_rank_one.rank ≠ 2 ∧
      frobenius_endomorphism phi_rank_one = Except.ok 2 :=
  ⟨by decide, rfl⟩

/-- C4 (amended): `frobenius_endomorphism` succeeds for every rank; each of
`frobenius_charpoly`, `frobenius_norm`, `frobenius_trace`, `is_ordinary` and
`is_supersingular` raises `NotImplementedError("rank must be two")` exactly
when the rank is not two, and succeeds when the rank is two. -/
theorem rank_two_guard (φ : Model) :
    frobenius_endomorphism φ = Except.ok φ.base_degree
    ∧ (φ.rank = 2 →
        frobenius_charpoly φ = Except.ok (φ.norm_payload, -φ.trace_payload)
        ∧ frobenius_norm φ = Except.ok φ.norm_payload
        ∧ frobenius_trace φ = Except.ok φ.trace_payload
        ∧ is_ordinary φ = Except.ok (!φ.char_divides_trace)
        ∧ is_supersingular φ = Except.ok φ.char_divides_trace)
    ∧ (φ.rank ≠ 2 →
        frobenius_charpoly φ
            = Except.error (PyErr.notImplementedError "rank must be two")
        ∧ frobenius_norm φ
            = Except.error (PyErr.notImplementedError "rank must be two")
        ∧ frobenius_trace φ
            = Except.error (PyErr.notImplementedError "rank must be two")
        ∧ is_ordinary φ
            = Except.error (PyErr.notImplementedError "rank must be two")
        ∧ is_supersingular φ
            = Except.error (PyErr.notImplementedError "rank must be two")) := by
  refine ⟨rfl, fun h => ?_, fun h => ?_⟩ <;>
    simp [frobenius_charpoly, frobenius_norm, frobenius_trace, is_ordinary,
      is_supersingular, check_rank_two, h]

/-- Witness for the amended C4 theorem at the two concrete modules above. -/
theorem rank_two_guard_witness :
    frobenius_charpoly phi_rank_two = Except.ok (3, -5)
    ∧ frobenius_norm phi_rank_one
        = Except.error (PyErr.notImplementedError "rank must be two") :=
  ⟨((rank_two_guard phi_rank_two).2.1 rfl).1,
   ((rank_two_guard phi_rank_one).2.2 (by decide)).2.1⟩

end FiniteDrinfeldModule

namespace DrinfeldModuleHomset

/-- The exception classes caught by `DrinfeldModuleHomset.__contains__`:
`AttributeError`, `ValueError` and `TypeError`. -/
def caught : PyErr → Bool
  | PyErr.attributeError _ => true
  | PyErr.valueError _ => true
  | PyErr.typeError _ => true
  | _ => false

/-- Embedding of `DrinfeldModuleHomset.__contains__`.  The argument is the
outcome of `self(x)` (the call to `_element_constructor_`, which builds a
`DrinfeldModuleMorphism` or raises): the method returns `True` on success,
returns `False` if the construction raised one of the caught exception
classes, and lets any other exception propagate. -/
def contains {M : Type} (construct : Except PyErr M) : Except PyErr Bool :=
  match construct with
  | Except.ok _ => Except.ok true
  | Except.error e => if caught e then Except.ok false else Except.error e

/-- C9 helper looks elsewhere; C10: `__contains__` returns `True` exactly when
the construction succeeds, returns `False` when it raises one of
`AttributeError`, `ValueError`, `TypeError`, and never propagates one of
those three exception classes. -/
theorem contains_spec {M : Type} (c : Except PyErr M) :
    (contains c = Except.ok true ↔ ∃ m, c = Except.ok m)
    ∧ (∀ e, caught e = true → c = Except.error e →
        contains c = Except.ok false)
    ∧ (∀ e, caught e = true → contains c ≠ Except.error e) := by
  refine ⟨?_, ?_, ?_⟩
  · cases c with
    | ok m => simp [contains]
    | error e =>
      simp only [contains]
      by_cases h : caught e <;> simp [h]
  · intro e he hc
    subst hc
    simp [contains, he]
  · intro e he
    cases c with
    | ok m => simp [contains]
    | error f =>
      simp only [contains]
      by_cases h : caught f = true
      · simp [h]
      · rw [if_neg h]
        intro hEq
        have hfe : f = e := Except.error.inj hEq
        rw [hfe, he] at h
        exact h rfl

/-- Witness for C10 at a concrete successful construction and a concrete
caught error. -/
theorem contains_spec_witness :
    contains (Except.ok (0 : ℕ)) = Except.ok true
    ∧ contains (Except.error (PyErr.valueError "x") : Except PyErr ℕ)
        = Except.ok false :=
  ⟨(contains_spec (Except.ok (0 : ℕ))).1.mpr ⟨0, rfl⟩,
   (contains_spec (Except.error (PyErr.valueError "x") : Except PyErr ℕ)).2.1
      (PyErr.valueError "x") rfl rfl⟩

end DrinfeldModuleHomset

namespace Subcrystal

/-- The three forms of the `contained` argument of `Subcrystal`: `None`
(everything is contained), a `frozenset`, or a callable predicate. -/
inductive Contained (A : Type) where
  | all : Contained A
  | finite (s : List A) : Contained A
  | test (p : A → Bool) : Contained A

/-- Embedding of `Subcrystal._containing`. -/
def containing {A : Type} [DecidableEq A] : Contained A → A → Bool
  | Contained.all, _ => true
  | Contained.finite s, x => decide (x ∈ s)
  | Contained.test p, x => p x

/-- The data of a `Subcrystal`: the ambient crystal's partial operators
`e_i` and `f_i` (on ambient values, `None` meaning undefined) and the
containment specification. -/
structure Data (A I : Type) where
  ambient_e : I → A → Option A
  ambient_f : I → A → Option A
  contained : Contained A

/-- Embedding of `Subcrystal.Element.e`: apply the ambient `e_i` to the
wrapped value; if it is undefined or the result fails the containment test,
return `None`, otherwise wrap the result. -/
def elt_e {A I : Type} [DecidableEq A] (D : Data A I) (i : I) (x : A) :
    Option A :=
  match D.ambient_e i x with
  | none => none
  | some ret => if containing D.contained ret then some ret else none

/-- Embedding of `Subcrystal.Element.f`, analogous to `elt_e`. -/
def elt_f {A I : Type} [DecidableEq A] (D : Data A I) (i : I) (x : A) :
    Option A :=
  match D.ambient_f i x with
  | none => none
  | some ret => if containing D.contained ret then some ret else none

/-- C9: the subcrystal operators return `None` exactly when the ambient
operator returns `None` or a value outside the subcrystal, otherwise they
return the (wrapped) ambient result; consequently every value they produce
satisfies the containment predicate, so the subcrystal is closed under its
own crystal operators. -/
theorem elt_e_elt_f_spec {A I : Type} [DecidableEq A] (D : Data A I)
    (i : I) (x : A) :
    (elt_e D i x = none ↔ (D.ambient_e i x = none ∨
        ∃ r, D.ambient_e i x = some r ∧ containing D.contained r = false))
    ∧ (∀ r, D.ambient_e i x = some r → containing D.contained r = true →
        elt_e D i x = some r)
    ∧ (∀ y, elt_e D i x = some y → containing D.contained y = true)
    ∧ (elt_f D i x = none ↔ (D.ambient_f i x = none ∨
        ∃ r, D.ambient_f i x = some r ∧ containing D.contained r = false))
    ∧ (∀ r, D.ambient_f i x = some r → containing D.contained r = true →
        elt_f D i x = some r)
    ∧ (∀ y, elt_f D i x = some y → containing D.contained y = true) := by
  refine ⟨?_, ?_, ?_, ?_, ?_, ?_⟩
  · cases he : D.ambient_e i x with
    | none => simp [elt_e, he]
    | some r =>
      simp only [elt_e, he]
      by_cases h : containing D.contained r <;> simp [h]
  · intro r hr hc
    simp [elt_e, hr, hc]
  · intro y hy
    cases he : D.ambient_e i x with
    | none => simp [elt_e, he] at hy
    | some r =>
      by_cases h : containing D.contained r = true
      · have hsome : elt_e D i x = some r := by simp [elt_e, he, h]
        rw [hsome] at hy
        cases hy
        exact h
      · have hnone : elt_e D i x = none := by simp [elt_e, he, h]
        rw [hnone] at hy
        exact absurd hy (by simp)
  · cases hf : D.ambient_f i x with
    | none => simp [elt_f, hf]
    | some r =>
      simp only [elt_f, hf]
      by_cases h : containing D.contained r <;> simp [h]
  · intro r hr hc
    simp [elt_f, hr, hc]
  · intro y hy
    cases hf : D.ambient_f i x with
    | none => simp [elt_f, hf] at hy
    | some r =>
      by_cases h : containing D.contained r = true
      · have hsome : elt_f D i x = some r := by simp [elt_f, hf, h]
        rw [hsome] at hy
        cases hy
        exact h
      · have hnone : elt_f D i x = none := by simp [elt_f, hf, h]
        rw [hnone] at hy
        exact absurd hy (by simp)

/-- A concrete subcrystal of the crystal on `ℕ` with `e i = pred`,
`f i = succ`, containing exactly the numbers below 3. -/
def exampleData : Data ℕ ℕ where
  ambient_e := fun _ x => if x = 0 then none else some (x - 1)
  ambient_f := fun _ x => some (x + 1)
  contained := Contained.test (fun x => decide (x < 3))

/-- Witness for C9 at the concrete subcrystal above. -/
theorem elt_e_elt_f_spec_witness :
    elt_e exampleData 0 2 = some 1
    ∧ containing exampleData.contained 1 = true :=
  ⟨(elt_e_elt_f_spec exampleData 0 2).2.1 1 rfl rfl,
   (elt_e_elt_f_spec exampleData 0 2).2.2.1 1
      ((elt_e_elt_f_spec exampleData 0 2).2.1 1 rfl rfl)⟩

end Subcrystal

namespace DrinfeldModularForms

/-- An element of the base ring of a `DrinfeldModularForms` ring: a fraction
of regular functions, recorded by its numerator and denominator as produced
by the substrate's `numerator()` and `denominator()` methods. -/
structure FracElt (A : Type) where
  num : A
  den : A

/-- Model of a `DrinfeldModularForms` ring.  `A` is the type of regular
functions (the polynomial ring `F_q[T]`), `F` the type of Drinfeld modular
forms.

Modelled from the spec: the exact-algebra substrate (polynomial degrees, the
`is_one` test on denominators, and the Ore-polynomial computation whose
coefficients `_coefficient_forms` specializes) lives outside `src/`; it is
carried here as the functions `degree`, `den_is_one` and
`coefficient_form_at`, where `coefficient_form_at a i` is the `i`-th
coefficient form of the universal Drinfeld module at `a`. -/
structure Data (A F : Type) where
  rank : ℕ
  degree : A → ℤ
  den_is_one : A → Bool
  coefficient_form_at : A → ℕ → F

/-- Embedding of `DrinfeldModularForms._coefficient_forms`: the loop
`for i in range(1, a.degree() * rank + 1)` collecting the specialized
coefficients of the universal Drinfeld module at `a`. -/
def coefficient_forms_list {A F : Type} (D : Data A F) (a : A) : List F :=
  (List.range (D.degree a * (D.rank : ℤ)).toNat).map
    (fun idx => D.coefficient_form_at a (idx + 1))

/-- Embedding of `DrinfeldModularForms.coefficient_form` (for `a` already an
element of the base ring, so the coercion step cannot fail): denominator
check, numerator extraction, index bounds check, then the list lookup. -/
def coefficient_form {A F : Type} (D : Data A F) (i : ℤ) (a : FracElt A) :
    Except PyErr F :=
  if D.den_is_one a.den = false then
    Except.error (PyErr.valueError "a should be in the ring of regular functions")
  else
    let b := a.num
    if i < 1 ∨ i > D.degree b * (D.rank : ℤ) then
      Except.error (PyErr.valueError "index must be >= 1 and <= deg(a)*rank")
    else
      match (coefficient_forms_list D b)[(i - 1).toNat]? with
      | some f => Except.ok f
      | none => Except.error (PyErr.other "IndexError")

/-- Embedding of `DrinfeldModularForms.coefficient_forms` (for `a` already an
element of the base ring): denominator check, then the full list. -/
def coefficient_forms {A F : Type} (D : Data A F) (a : FracElt A) :
    Except PyErr (List F) :=
  if D.den_is_one a.den = false then
    Except.error
      (PyErr.valueError "the input should be in the ring of regular functions")
  else
    Except.ok (coefficient_forms_list D a.num)

/-- C6: with a denominator that is not one, both `coefficient_form` and
`coefficient_forms` fail immediately with a `ValueError` about the ring of
regular functions; with denominator one and `1 ≤ i ≤ deg(a)·rank`,
`coefficient_form i a` returns the `i`-th coefficient form of the universal
Drinfeld module at `a` without error. -/
theorem coefficient_form_spec {A F : Type} (D : Data A F) (i : ℤ)
    (a : FracElt A) :
    (D.den_is_one a.den = false →
      coefficient_form D i a =
          Except.error
            (PyErr.valueError "a should be in the ring of regular functions")
        ∧ coefficient_forms D a =
          Except.error
            (PyErr.valueError
              "the input should be in the ring of regular functions"))
    ∧ (D.den_is_one a.den = true → 1 ≤ i → i ≤ D.degree a.num * (D.rank : ℤ) →
        coefficient_form D i a =
          Except.ok (D.coefficient_form_at a.num i.toNat)) := by
  constructor
  · intro h
    exact ⟨by simp [coefficient_form, h], by simp [coefficient_forms, h]⟩
  · intro h h1 h2
    have hden : ¬ D.den_is_one a.den = false := by simp [h]
    have hidx : ¬ (i < 1 ∨ i > D.degree a.num * (D.rank : ℤ)) := by
      push_neg
      exact ⟨h1, h2⟩
    have hlt : (i - 1).toNat < (D.degree a.num * (D.rank : ℤ)).toNat := by
      have h0 : 0 ≤ i - 1 := by omega
      omega
    have hget : (coefficient_forms_list D a.num)[(i - 1).toNat]?
        = some (D.coefficient_form_at a.num ((i - 1).toNat + 1)) := by
      rw [coefficient_forms_list, List.getElem?_map, List.getElem?_range hlt]
      rfl
    have hnat : (i - 1).toNat + 1 = i.toNat := by omega
    rw [coefficient_form, if_neg hden]
    simp only [if_neg hidx, hget, hnat]

/-- A concrete `DrinfeldModularForms` model over `A = ℤ` used as witness
input: rank 2, `degree` the identity, denominators one exactly at `1`, and
the coefficient forms recorded as pairs. -/
def exampleData : Data ℤ (ℤ × ℕ) where
  rank := 2
  degree := fun a => a
  den_is_one := fun a => decide (a = 1)
  coefficient_form_at := fun a i => (a, i)

/-- Witness for C6: at the concrete ring above, the error path and the
success path are both realized. -/
theorem coefficient_form_spec_witness :
    coefficient_form exampleData 3 ⟨2, 1⟩ = Except.ok ((2 : ℤ), 3)
    ∧ coefficient_form exampleData 1 ⟨2, 5⟩ =
        Except.error
          (PyErr.valueError "a should be in the ring of regular functions") :=
  ⟨(coefficient_form_spec exampleData 3 ⟨2, 1⟩).2 (by decide) (by decide)
      (by decide),
   ((coefficient_form_spec exampleData 1 ⟨2, 5⟩).1 (by decide)).1⟩

end DrinfeldModularForms

namespace FusionDouble

/-- Embedding of `FusionDouble.root_of_unity`, parameterized by the chosen
generator `gen` of the cyclotomic field `self.field()` and by the cyclotomic
order `m = G.exponent()`: with `n = 2 * r * m`, raise `ValueError` when `n`
is not an integer, and return `gen ** n` otherwise. -/
def root_of_unity {K : Type} [Field K] (gen : K) (m : ℕ) (r : ℚ) :
    Except PyErr K :=
  let n : ℚ := 2 * r * (m : ℚ)
  if n.den = 1 then Except.ok (gen ^ n.num)
  else Except.error (PyErr.valueError "not a root of unity in the field")

/-- C5: `root_of_unity r` raises `ValueError("not a root of unity in the
field")` exactly when `n = 2 r·exponent(G)` is not an integer; otherwise it
returns the `n`-th power of the generator of `CyclotomicField(4·exponent(G))`,
which under the canonical embedding `gen = e^{2 π i/(4 m)}` is the complex
number `e^{i π r}`. -/
theorem root_of_unity_spec (m : ℕ) (hm : 0 < m) (r : ℚ) :
    (∀ (K : Type) (_ : Field K) (gen : K),
      root_of_unity gen m r =
          Except.error (PyErr.valueError "not a root of unity in the field")
        ↔ ¬ ∃ z : ℤ, (z : ℚ) = 2 * r * (m : ℚ))
    ∧ ((2 * r * (m : ℚ)).den = 1 →
        root_of_unity (Complex.exp (2 * Real.pi * Complex.I / (4 * (m : ℂ))))
            m r
          = Except.ok (Complex.exp (Real.pi * Complex.I * (r : ℂ)))) := by
  have hint : (2 * r * (m : ℚ)).den = 1 ↔ ∃ z : ℤ, (z : ℚ) = 2 * r * (m : ℚ) := by
    constructor
    · intro h
      exact ⟨(2 * r * (m : ℚ)).num, (Rat.den_eq_one_iff _).mp h⟩
    · rintro ⟨z, hz⟩
      rw [← hz]
      exact Rat.den_intCast z
  constructor
  · intro K hK gen
    rw [root_of_unity]
    by_cases h : (2 * r * (m : ℚ)).den = 1
    · simp only [h, if_true]
      constructor
      · intro hEq
        exact absurd hEq (by simp)
      · intro hno
        exact absurd (hint.mp h) hno
    · simp only [h, if_false]
      simp only [iff_true, eq_self_iff_true, true_iff]
      rw [← hint]
      exact h
  · intro h
    rw [root_of_unity]
    simp only [h, if_true]
    congr 1
    have hnum : ((2 * r * (m : ℚ)).num : ℚ) = 2 * r * (m : ℚ) :=
      (Rat.den_eq_one_iff _).mp h
    have hnumC : ((2 * r * (m : ℚ)).num : ℂ) = 2 * (r : ℂ) * (m : ℂ) := by
      have := congrArg (fun q : ℚ => (q : ℂ)) hnum
      push_cast at this ⊢
      exact this
    rw [← Complex.exp_int_mul, hnumC]
    congr 1
    have hm0 : (m : ℂ) ≠ 0 := by
      exact_mod_cast Nat.cast_ne_zero.mpr hm.ne'
    field_simp
    ring

/-- Witness for C5 at `m = 6`, `r = 2/3` (where `n = 8` is an integer). -/
theorem root_of_unity_spec_witness :
    root_of_unity
        (Complex.exp (2 * Real.pi * Complex.I / (4 * ((6 : ℕ) : ℂ)))) 6 (2 / 3)
      = Except.ok (Complex.exp (Real.pi * Complex.I * (((2 : ℚ) / 3 : ℚ) : ℂ))) :=
  (root_of_unity_spec 6 (by decide) (2 / 3)).2
    (by rw [show (2 * ((2 : ℚ) / 3) * ((6 : ℕ) : ℚ)) = ((8 : ℤ) : ℚ) from by
          norm_num]
        exact Rat.den_intCast 8)

end FusionDouble

namespace GeneratingFunction

/-- Modelled from the spec: `IntegerMod.order()` of the substrate is the
additive order of a residue `x` in `Z/mZ`, namely `m / gcd(x, m)`. -/
def addOrder (m : ℕ) [NeZero m] (x : ZMod m) : ℕ :=
  m / Nat.gcd x.val m

/-- Embedding of `_compositions_mod_` in the non-multidimensional case, where
every `u`-entry is a one-dimensional vector over `Z/mZ`: if `u` is empty,
yield the empty tuple when the remainder is zero; otherwise iterate the first
entry `j` over `0, …, order(u₀) - 1` and recurse on `r - j·u₀`.  The entries
of the produced tuples are the canonical representatives `j`. -/
def compositions_mod_aux (m : ℕ) [NeZero m] :
    List (ZMod m) → ZMod m → List (List ℕ)
  | [], r => if r = 0 then [[]] else []
  | v :: u, r =>
    (List.range (addOrder m v)).flatMap
      (fun j => (compositions_mod_aux m u (r - (j : ZMod m) * v)).map
        (fun a => j :: a))

/-- Embedding of `compositions_mod` (non-multidimensional case): coerce the
coefficients and the remainder into `Z/mZ` and run the recursion. -/
def compositions_mod (u : List ℤ) (m : ℕ) [NeZero m] (r : ℤ) :
    List (List ℕ) :=
  compositions_mod_aux m (u.map (fun x : ℤ => (x : ZMod m))) ((r : ZMod m))

/-- The tuples yielded by `compositions_mod`, read as residues in `Z/mZ`
(the reading used by the claim under examination). -/
def yielded (u : List ℤ) (m : ℕ) [NeZero m] (r : ℤ) : List (List (ZMod m)) :=
  (compositions_mod u m r).map (List.map (fun j : ℕ => (j : ZMod m)))

/-- The examined claim about `compositions_mod`: it would yield exactly the
tuples of residues in `Z/mZ` whose dot product with `u` is `r` modulo `m`,
each exactly once. -/
def compositions_mod_claim (m : ℕ) [NeZero m] (u : List ℤ) (r : ℤ) : Prop :=
  (∀ a : List (ZMod m), a ∈ yielded u m r ↔
    (a.length = u.length ∧
      (List.zipWith (fun x c => x * (c : ZMod m)) a u).sum = (r : ZMod m)))
  ∧ (yielded u m r).Nodup

/-- C8 counterexample: for `u = (0)`, `m = 2`, `r = 0`, the tuple `(1)` over
`Z/2Z` has dot product `0 ≡ r`, yet `compositions_mod` yields only `(0)`
(entries are iterated only up to the additive order of the coefficient, here
`1`), so the claim fails. -/
theorem compositions_mod_claim_false : ¬ compositions_mod_claim 2 [0] 0 := by
  intro h
  have h1 := (h.1 [1]).mpr ⟨by decide, by decide⟩
  exact absurd h1 (by decide)

/-- Characterization of `compositions_mod_aux`: it lists exactly the tuples
whose entries are bounded by the additive orders of the coefficients and
whose dot product equals the remainder, without repetition. -/
theorem compositions_mod_aux_spec (m : ℕ) [NeZero m] :
    ∀ (us : List (ZMod m)) (rr : ZMod m),
      (∀ a : List ℕ, a ∈ compositions_mod_aux m us rr ↔
        (List.Forall₂ (fun j v => j < addOrder m v) a us ∧
          (List.zipWith (fun (j : ℕ) (v : ZMod m) => (j : ZMod m) * v)
              a us).sum = rr))
      ∧ (compositions_mod_aux m us rr).Nodup := by
  intro us
  induction us with
  | nil =>
    intro rr
    constructor
    · intro a
      by_cases h : rr = 0
      · subst h
        simp [compositions_mod_aux, List.forall₂_nil_right_iff]
      · simp only [compositions_mod_aux, if_neg h, List.not_mem_nil,
          false_iff, List.forall₂_nil_right_iff, not_and]
        intro ha
        subst ha
        simpa using fun hEq => h hEq.symm
    · by_cases h : rr = 0 <;> simp [compositions_mod_aux, h]
  | cons v us ih =>
    intro rr
    constructor
    · intro a
      constructor
      · intro ha
        rw [compositions_mod_aux, List.mem_flatMap] at ha
        obtain ⟨j, hj, hmem⟩ := ha
        rw [List.mem_map] at hmem
        obtain ⟨t, ht, rfl⟩ := hmem
        rw [List.mem_range] at hj
        have := ((ih (rr - (j : ZMod m) * v)).1 t).mp ht
        refine ⟨List.Forall₂.cons hj this.1, ?_⟩
        simp only [List.zipWith_cons_cons, List.sum_cons, this.2]
        ring
      · rintro ⟨hf, hs⟩
        rcases List.forall₂_cons_right_iff.mp hf with ⟨j, t, hj, hft, rfl⟩
        rw [compositions_mod_aux, List.mem_flatMap]
        refine ⟨j, List.mem_range.mpr hj, List.mem_map.mpr ⟨t, ?_, rfl⟩⟩
        refine ((ih (rr - (j : ZMod m) * v)).1 t).mpr ⟨hft, ?_⟩
        simp only [List.zipWith_cons_cons, List.sum_cons] at hs
        rw [← hs]
        ring
    · rw [compositions_mod_aux, List.nodup_flatMap]
      constructor
      · intro j _
        exact ((ih _).2).map (fun a b hab => by injection hab)
      · refine List.Pairwise.imp ?_ (List.nodup_range (addOrder m v))
        intro j k hjk l hl hl2
        rw [List.mem_map] at hl hl2
        obtain ⟨t, _, rfl⟩ := hl
        obtain ⟨s, _, heq⟩ := hl2
        exact hjk (by injection heq.symm)

/-- C8 (amended): `compositions_mod(u, m, r)` yields exactly those tuples
whose `i`-th entry is a natural number below the additive order of `u_i` in
`Z/mZ` and whose dot product with `u` is congruent to `r` modulo `m`, each
such tuple exactly once. -/
theorem compositions_mod_spec (m : ℕ) [NeZero m] (u : List ℤ) (r : ℤ) :
    (∀ a : List ℕ, a ∈ compositions_mod u m r ↔
      (List.Forall₂ (fun (j : ℕ) (c : ℤ) => j < addOrder m (c : ZMod m)) a u ∧
        (List.zipWith (fun (j : ℕ) (c : ℤ) => (j : ZMod m) * (c : ZMod m))
            a u).sum = (r : ZMod m)))
    ∧ (compositions_mod u m r).Nodup := by
  have h := compositions_mod_aux_spec m (u.map (fun x : ℤ => (x : ZMod m)))
    ((r : ZMod m))
  refine ⟨fun a => ?_, h.2⟩
  rw [compositions_mod, (h.1 a), List.forall₂_map_right_iff,
    List.zipWith_map_right]

/-- Witness for C8 (amended) at `m = 3`, `u = (2, 2)`, `r = 1`: the tuple
`(2, 0)` is yielded. -/
theorem compositions_mod_spec_witness :
    [2, 0] ∈ compositions_mod [2, 2] 3 1 :=
  ((compositions_mod_spec 3 [2, 2] 1).1 [2, 0]).mpr
    ⟨List.Forall₂.cons (by decide)
        (List.Forall₂.cons (by decide) List.Forall₂.nil),
      by decide⟩

end GeneratingFunction

namespace FusionDouble

/-- A simple object of a fusion double, as enumerated by
`FusionDouble.__init__`: a pair of a conjugacy class representative `g` and
an irreducible character `chi` of the centralizer of `g`, the character
being carried as a `K`-valued function on the group. -/
abbrev Obj (G K : Type) := G × (G → K)

variable {G : Type} [Group G] [Fintype G] [DecidableEq G] {K : Type} [Field K]

/-- Embedding of `G.centralizer(a).order()`: the number of group elements
commuting with `a`. -/
def centralizer_order (a : G) : ℕ :=
  (Finset.univ.filter (fun g => g * a = a * g)).card

/-- Embedding of `FusionDouble.s_ij`: the sum over the group elements `g`
for which `a·g b g⁻¹ = g b g⁻¹·a` of `χ₁(g b g⁻¹)·χ₂(g⁻¹ a g)`, scaled by
`1/(|C(a)|·|C(b)|)` in the unitary case and by `|G|/(|C(a)|·|C(b)|)`
otherwise. -/
def s_ij (i j : Obj G K) (unitary : Bool) : K :=
  let a := i.1
  let χ₁ := i.2
  let b := j.1
  let χ₂ := j.2
  let s : K := ∑ g ∈ Finset.univ.filter
      (fun g : G => a * g * b * g⁻¹ = g * b * g⁻¹ * a),
      χ₁ (g * b * g⁻¹) * χ₂ (g⁻¹ * a * g)
  let coef : K :=
    if unitary then
      1 / ((centralizer_order a : K) * (centralizer_order b : K))
    else
      (Fintype.card G : K) /
        ((centralizer_order a : K) * (centralizer_order b : K))
  coef * s

/-- The data of a `FusionDouble`, as collected by `__init__`: the list of
conjugacy class representatives produced by
`G.conjugacy_classes_representatives()` and, for each representative, the
list of irreducible characters of its centralizer produced by the
substrate's `irreducible_characters()`. -/
structure Data (G K : Type) where
  reps : List G
  chars : G → List (G → K)

/-- The basis of simple objects, in the enumeration order of `__init__`
(outer loop over representatives, inner loop over characters). -/
def objects (D : Data G K) : List (Obj G K) :=
  D.reps.flatMap (fun g => (D.chars g).map (fun χ => (g, χ)))

/-- Embedding of `FusionDouble.one`: the basis element of index `0`
(`__init__` presupposes a nonempty basis; the default value is never used
for genuine data). -/
def one_obj (D : Data G K) : Obj G K :=
  (objects D).headD (1, fun _ => 1)

/-- Embedding of `FusionDouble.total_q_order`: the order of `G`. -/
def total_q_order (_D : Data G K) : K := (Fintype.card G : K)

/-- Embedding of `FusionDouble.global_q_dimension`: the square of the order
of `G`. -/
def global_q_dimension (_D : Data G K) : ℕ := Fintype.card G ^ 2

/-- Embedding of `FusionDouble.Element.q_dimension`:
`s_ij(self, one, unitary=False)`. -/
def q_dimension (D : Data G K) (x : Obj G K) : K :=
  s_ij x (one_obj D) false

/-- Embedding of `FusionDouble.s_matrix`: row `y`, column `x` holds
`s_ij(b[x], b[y], unitary)`; in the unitary case the whole matrix is in
addition divided by `total_q_order()`. -/
def s_matrix (D : Data G K) (unitary : Bool) :
    Matrix (Fin (objects D).length) (Fin (objects D).length) K :=
  let S : Matrix (Fin (objects D).length) (Fin (objects D).length) K :=
    Matrix.of (fun y x => s_ij ((objects D).get x) ((objects D).get y) unitary)
  if unitary then ((Fintype.card G : K)⁻¹) • S else S

/-- Embedding of `FusionDouble.N_ijk`: the Verlinde sum
`∑_r s(i,r)·s(j,r)·s(k,r)/s(1,r)` over the basis, with the unitary
`s_ij` entries (the `ZZ(...)` conversion of the source only changes the
parent of the value, not the value). -/
def N_ijk (D : Data G K) (i j k : Obj G K) : K :=
  ((objects D).map (fun r =>
    s_ij i r true * s_ij j r true * s_ij k r true / s_ij (one_obj D) r true)).sum

/-- The cyclic group of order 2, used as a concrete input group. -/
inductive C2 where
  | e : C2
  | x : C2
  deriving DecidableEq, Fintype

/-- Multiplication table of the cyclic group of order 2. -/
def C2.mul : C2 → C2 → C2
  | C2.e, y => y
  | C2.x, C2.e => C2.x
  | C2.x, C2.x => C2.e

instance : CommGroup C2 where
  mul := C2.mul
  one := C2.e
  inv := fun a => a
  mul_assoc := by decide
  one_mul := by decide
  mul_one := by decide
  inv_mul_cancel := by decide
  mul_comm := by decide

/-- The sign character of `C2` (with rational values). -/
def C2.sgn : C2 → ℚ
  | C2.e => 1
  | C2.x => -1

/-- The fusion double data of the cyclic group of order 2 over `ℚ` (all its
character values are rational): two singleton conjugacy classes, each
centralizer being the whole group, carrying its trivial and its sign
character. -/
def z2_data : Data C2 ℚ where
  reps := [C2.e, C2.x]
  chars := fun _ => [fun _ => 1, C2.sgn]

theorem univ_c2 : (Finset.univ : Finset C2) = {C2.e, C2.x} := by decide

theorem sum_univ_c2 (f : C2 → ℚ) :
    ∑ g ∈ (Finset.univ : Finset C2), f g = f C2.e + f C2.x := by
  rw [univ_c2, Finset.sum_insert (by decide), Finset.sum_singleton]

theorem filter_comm_c2 (a b : C2) :
    (Finset.univ.filter
      (fun g : C2 => a * g * b * g⁻¹ = g * b * g⁻¹ * a)) = Finset.univ := by
  revert a b
  decide

theorem conj_c2 (g b : C2) : g * b * g⁻¹ = b := by revert g b; decide

theorem conj_c2' (g a : C2) : g⁻¹ * a * g = a := by revert g a; decide

theorem cent_c2 (a : C2) : centralizer_order a = 2 := by revert a; decide

theorem card_c2 : Fintype.card C2 = 2 := rfl

/-- Evaluation of the unitary `s_ij` entries over `C2`: every group element
passes the commutation filter and conjugation is trivial, so the sum has two
equal terms `χ₁(b)·χ₂(a)`. -/
theorem s_ij_c2 (a b : C2) (χ₁ χ₂ : C2 → ℚ) :
    s_ij (a, χ₁) (b, χ₂) true
      = 1 / ((2 : ℚ) * 2) * (χ₁ b * χ₂ a + χ₁ b * χ₂ a) := by
  simp only [s_ij, filter_comm_c2, cent_c2, if_true]
  rw [sum_univ_c2]
  simp only [conj_c2, conj_c2']
  push_cast
  ring

/-- The first basis index of the fusion double of `C2`. -/
def zi0 : Fin (objects z2_data).length := ⟨0, by decide⟩

/-- The second basis index of the fusion double of `C2`. -/
def zi1 : Fin (objects z2_data).length := ⟨1, by decide⟩

/-- The third basis index of the fusion double of `C2`. -/
def zi2 : Fin (objects z2_data).length := ⟨2, by decide⟩

/-- The fourth basis index of the fusion double of `C2`. -/
def zi3 : Fin (objects z2_data).length := ⟨3, by decide⟩

theorem univ_zfin :
    (Finset.univ : Finset (Fin (objects z2_data).length))
      = {zi0, zi1, zi2, zi3} := by decide

theorem sum_univ_zfin (f : Fin (objects z2_data).length → ℚ) :
    ∑ k, f k = f zi0 + f zi1 + f zi2 + f zi3 := by
  rw [univ_zfin, Finset.sum_insert (by decide), Finset.sum_insert (by decide),
    Finset.sum_insert (by decide), Finset.sum_singleton]
  ring

theorem get_z2_0 (h : 0 < (objects z2_data).length) :
    (objects z2_data).get ⟨0, h⟩ = (C2.e, fun _ => (1 : ℚ)) := rfl

theorem get_z2_1 (h : 1 < (objects z2_data).length) :
    (objects z2_data).get ⟨1, h⟩ = (C2.e, C2.sgn) := rfl

theorem get_z2_2 (h : 2 < (objects z2_data).length) :
    (objects z2_data).get ⟨2, h⟩ = (C2.x, fun _ => (1 : ℚ)) := rfl

theorem get_z2_3 (h : 3 < (objects z2_data).length) :
    (objects z2_data).get ⟨3, h⟩ = (C2.x, C2.sgn) := rfl

theorem s_matrix_z2_apply (y x : Fin (objects z2_data).length) :
    s_matrix z2_data true y x
      = ((Fintype.card C2 : ℚ))⁻¹ *
          s_ij ((objects z2_data).get x) ((objects z2_data).get y) true := rfl

/-- C1 evaluation at the failing input: for the fusion double of the cyclic
group of order 2, the matrix `S` returned by `s_matrix(unitary=True)`
satisfies `S·S̄ = (1/4)·1` — `s_matrix` divides the already-normalized
unitary `s_ij` entries by `total_q_order()` once more — so `S` multiplied by
its entrywise complex conjugate is not the identity matrix. -/
theorem s_matrix_unitary_not_unitary_z2 :
    s_matrix z2_data true * (s_matrix z2_data true).map (starRingEnd ℚ)
        = ((4 : ℚ)⁻¹) • 1
    ∧ s_matrix z2_data true * (s_matrix z2_data true).map (starRingEnd ℚ)
        ≠ 1 := by
  have hprod : s_matrix z2_data true * (s_matrix z2_data true).map
      (starRingEnd ℚ) = ((4 : ℚ)⁻¹) • 1 := by
    ext y x
    rw [Matrix.mul_apply, sum_univ_zfin]
    fin_cases y <;> fin_cases x <;>
      · simp only [Matrix.map_apply, starRingEnd_apply, star_trivial,
          s_matrix_z2_apply, zi0, zi1, zi2, zi3, get_z2_0, get_z2_1,
          get_z2_2, get_z2_3, s_ij_c2, card_c2, Matrix.smul_apply,
          Matrix.one_apply, C2.sgn]
        norm_num [Fin.ext_iff, z2_data]
  refine ⟨hprod, ?_⟩
  rw [hprod]
  intro h
  have h00 := congrFun (congrFun h zi0) zi0
  simp only [Matrix.smul_apply, Matrix.one_apply_eq, smul_eq_mul,
    mul_one] at h00
  norm_num at h00

/-- The conjugacy class of `a`, as produced by `G.conjugacy_class(a)`. -/
def conj_class (a : G) : Finset G :=
  Finset.univ.image (fun g => g * a * g⁻¹)

theorem centralizer_order_pos (a : G) : 0 < centralizer_order a := by
  rw [centralizer_order]
  exact Finset.card_pos.mpr ⟨1, by simp⟩

theorem centralizer_order_one : centralizer_order (1 : G) = Fintype.card G := by
  rw [centralizer_order]
  rw [Finset.filter_true_of_mem (fun g _ => by rw [mul_one, one_mul])]
  exact Finset.card_univ

/-- Orbit–stabilizer for conjugation: the size of a conjugacy class times the
order of the centralizer of its representative is the group order. -/
theorem conj_class_card_mul_centralizer (a : G) :
    (conj_class a).card * centralizer_order a = Fintype.card G := by
  have h : (Finset.univ : Finset G).card
      = ∑ b ∈ conj_class a,
          (Finset.univ.filter (fun g : G => g * a * g⁻¹ = b)).card :=
    Finset.card_eq_sum_card_image (fun g : G => g * a * g⁻¹) Finset.univ
  have hfib : ∀ b ∈ conj_class a,
      (Finset.univ.filter (fun g : G => g * a * g⁻¹ = b)).card
        = centralizer_order a := by
    intro b hb
    rw [conj_class, Finset.mem_image] at hb
    obtain ⟨g₀, _, hg₀⟩ := hb
    rw [centralizer_order]
    apply Finset.card_bij' (fun g _ => g₀⁻¹ * g) (fun h _ => g₀ * h)
    · intro g hg
      rw [Finset.mem_filter] at hg
      have hga : g * a * g⁻¹ = g₀ * a * g₀⁻¹ := by rw [hg.2, hg₀]
      rw [Finset.mem_filter]
      refine ⟨Finset.mem_univ _, ?_⟩
      have h1 : g₀⁻¹ * (g * a * g⁻¹) * g = g₀⁻¹ * g * a := by group
      have h2 : g₀⁻¹ * (g₀ * a * g₀⁻¹) * g = a * (g₀⁻¹ * g) := by group
      rw [hga] at h1
      rw [h2] at h1
      exact h1.symm
    · intro c hc
      rw [Finset.mem_filter] at hc
      rw [Finset.mem_filter]
      refine ⟨Finset.mem_univ _, ?_⟩
      have hca : c * a = a * c := hc.2
      have h3 : g₀ * c * a * (g₀ * c)⁻¹ = g₀ * (c * a) * c⁻¹ * g₀⁻¹ := by group
      rw [h3, hca]
      have h4 : g₀ * (a * c) * c⁻¹ * g₀⁻¹ = g₀ * a * g₀⁻¹ := by group
      rw [h4, hg₀]
    · intro g _
      group
    · intro c _
      group
  rw [Finset.sum_congr rfl hfib, Finset.sum_const, smul_eq_mul,
    Finset.card_univ] at h
  exact h.symm

omit [Field K] in
theorem sum_conj_class_card (D : Data G K)
    (hcomp : ∀ x : G, ∃ a ∈ D.reps, ∃ g : G, g * a * g⁻¹ = x)
    (hdis : ∀ a ∈ D.reps, ∀ b ∈ D.reps, a ≠ b → ∀ g : G, g * a * g⁻¹ ≠ b)
    (hnodup : D.reps.Nodup) :
    (D.reps.map (fun a => (conj_class a).card)).sum = Fintype.card G := by
  have huniv : (Finset.univ : Finset G)
      = D.reps.toFinset.biUnion conj_class := by
    apply Finset.ext
    intro x
    simp only [Finset.mem_univ, true_iff, Finset.mem_biUnion,
      List.mem_toFinset]
    obtain ⟨a, ha, g, hg⟩ := hcomp x
    exact ⟨a, ha, Finset.mem_image.mpr ⟨g, Finset.mem_univ g, hg⟩⟩
  have hdisj : ∀ a ∈ D.reps.toFinset, ∀ b ∈ D.reps.toFinset, a ≠ b →
      Disjoint (conj_class a) (conj_class b) := by
    intro a ha b hb hab
    rw [Finset.disjoint_left]
    intro x hxa hxb
    rw [conj_class, Finset.mem_image] at hxa hxb
    obtain ⟨g, _, hg⟩ := hxa
    obtain ⟨h, _, hh⟩ := hxb
    have hx : g * a * g⁻¹ = h * b * h⁻¹ := by rw [hg, hh]
    have hcontra : (h⁻¹ * g) * a * (h⁻¹ * g)⁻¹ = b := by
      have h5 : (h⁻¹ * g) * a * (h⁻¹ * g)⁻¹ = h⁻¹ * (g * a * g⁻¹) * h := by
        group
      rw [h5, hx]
      group
    exact hdis a (List.mem_toFinset.mp ha) b (List.mem_toFinset.mp hb) hab
      (h⁻¹ * g) hcontra
  have hcard := Finset.card_biUnion hdisj
  rw [← huniv, Finset.card_univ] at hcard
  rw [← List.sum_toFinset (fun a => (conj_class a).card) hnodup]
  exact hcard.symm

theorem list_sum_flatMap {α M : Type} [AddCommMonoid M] (l : List α)
    (f : α → List M) :
    (l.flatMap f).sum = (l.map (fun a => (f a).sum)).sum := by
  induction l with
  | nil => simp
  | cons a l ih => simp [ih]

variable [CharZero K]

theorem conj_class_card_cast (a : G) :
    (((conj_class a).card : K)) =
      (Fintype.card G : K) / (centralizer_order a : K) := by
  have h := conj_class_card_mul_centralizer a
  have hc : ((centralizer_order a : K)) ≠ 0 :=
    Nat.cast_ne_zero.mpr (centralizer_order_pos a).ne'
  rw [eq_div_iff hc]
  exact_mod_cast congrArg (fun n : ℕ => (n : K)) h

/-- Evaluation of `q_dimension` on a simple object `(a, χ)`: the commutation
filter is trivial for `b = 1`, so the `s_ij` sum collapses to
`|G|·χ(1)`, and the coefficient is `|G|/(|C(a)|·|G|)`. -/
theorem q_dimension_val (D : Data G K)
    (hone : one_obj D = ((1 : G), fun _ => (1 : K))) (a : G) (χ : G → K) :
    q_dimension D (a, χ)
      = (Fintype.card G : K) * χ 1 / (centralizer_order a : K) := by
  rw [q_dimension, hone]
  simp only [s_ij]
  have hfilter : (Finset.univ.filter
      (fun g : G => a * g * 1 * g⁻¹ = g * 1 * g⁻¹ * a)) = Finset.univ :=
    Finset.filter_true_of_mem (fun g _ => by group)
  have hconj : ∀ g : G, g * 1 * g⁻¹ = 1 := fun g => by group
  rw [hfilter]
  simp only [hconj]
  rw [Finset.sum_const, Finset.card_univ, centralizer_order_one]
  have hG : ((Fintype.card G : K)) ≠ 0 :=
    Nat.cast_ne_zero.mpr Fintype.card_ne_zero
  have hc : ((centralizer_order a : K)) ≠ 0 :=
    Nat.cast_ne_zero.mpr (centralizer_order_pos a).ne'
  simp only [Bool.false_eq_true, if_false, mul_one, nsmul_eq_mul]
  field_simp
  ring

theorem sum_q_dimension_sq (D : Data G K)
    (hone : one_obj D = ((1 : G), fun _ => (1 : K)))
    (hcomp : ∀ x : G, ∃ a ∈ D.reps, ∃ g : G, g * a * g⁻¹ = x)
    (hdis : ∀ a ∈ D.reps, ∀ b ∈ D.reps, a ≠ b → ∀ g : G, g * a * g⁻¹ ≠ b)
    (hnodup : D.reps.Nodup)
    (hdeg : ∀ a ∈ D.reps, ((D.chars a).map (fun χ => χ 1 ^ 2)).sum
        = (centralizer_order a : K)) :
    ((objects D).map (fun x => q_dimension D x ^ 2)).sum
      = (Fintype.card G : K) ^ 2 := by
  rw [objects, List.map_flatMap, list_sum_flatMap]
  have hinner : ∀ a ∈ D.reps,
      (((D.chars a).map (fun χ => (a, χ))).map
          (fun x : Obj G K => q_dimension D x ^ 2)).sum
        = (Fintype.card G : K) * ((conj_class a).card : K) := by
    intro a ha
    rw [List.map_map]
    have hpt : ((D.chars a).map
        ((fun x : Obj G K => q_dimension D x ^ 2) ∘ (fun χ => (a, χ))))
          = (D.chars a).map (fun χ =>
              ((Fintype.card G : K) / (centralizer_order a : K)) ^ 2 *
                χ 1 ^ 2) := by
      apply List.map_congr_left
      intro χ _
      simp only [Function.comp_apply, q_dimension_val D hone]
      rw [div_pow, mul_pow]
      ring
    rw [hpt, List.sum_map_mul_left, hdeg a ha]
    have hc : ((centralizer_order a : K)) ≠ 0 :=
      Nat.cast_ne_zero.mpr (centralizer_order_pos a).ne'
    rw [conj_class_card_cast]
    field_simp
    ring
  rw [List.map_congr_left hinner, List.sum_map_mul_left]
  have hsum := sum_conj_class_card D hcomp hdis hnodup
  have hcast : ((D.reps.map (fun a => ((conj_class a).card : K))).sum)
      = ((Fintype.card G : K)) := by
    have h1 : (((D.reps.map (fun a => (conj_class a).card)).sum : ℕ) : K)
        = ((D.reps.map (fun a => (conj_class a).card)).map
            (fun n : ℕ => (n : K))).sum :=
      Nat.cast_list_sum (D.reps.map (fun a => (conj_class a).card))
    rw [hsum, List.map_map] at h1
    exact h1.symm
  rw [hcast]
  ring

/-- C3: `global_q_dimension()` returns the square of the group order, and
over the field of character values this equals the sum of the squares of the
quantum dimensions of the simple objects.  The hypotheses are the substrate
contract of `__init__`: the basis starts with the unit object, the
representatives enumerate the conjugacy classes without repetition, and for
each representative the listed character degrees satisfy
`∑ χ(1)² = |C(a)|` (the defining property of a complete list of irreducible
characters). -/
theorem global_q_dimension_spec (D : Data G K)
    (hone : one_obj D = ((1 : G), fun _ => (1 : K)))
    (hcomp : ∀ x : G, ∃ a ∈ D.reps, ∃ g : G, g * a * g⁻¹ = x)
    (hdis : ∀ a ∈ D.reps, ∀ b ∈ D.reps, a ≠ b → ∀ g : G, g * a * g⁻¹ ≠ b)
    (hnodup : D.reps.Nodup)
    (hdeg : ∀ a ∈ D.reps, ((D.chars a).map (fun χ => χ 1 ^ 2)).sum
        = (centralizer_order a : K)) :
    global_q_dimension D = Fintype.card G ^ 2
    ∧ (global_q_dimension D : K)
        = ((objects D).map (fun x => q_dimension D x ^ 2)).sum := by
  refine ⟨rfl, ?_⟩
  rw [sum_q_dimension_sq D hone hcomp hdis hnodup hdeg, global_q_dimension]
  push_cast
  ring

theorem one_c2 : (1 : C2) = C2.e := rfl

/-- Witness for C3 at the fusion double of the cyclic group of order 2. -/
theorem global_q_dimension_spec_witness :
    global_q_dimension z2_data = Fintype.card C2 ^ 2
    ∧ ((global_q_dimension z2_data : ℚ))
        = ((objects z2_data).map (fun x => q_dimension z2_data x ^ 2)).sum :=
  global_q_dimension_spec z2_data rfl (by decide) (by decide) (by decide)
    (by
      intro a ha
      norm_num [z2_data, C2.sgn, cent_c2, one_c2])

end FusionDouble

namespace GeneratingFunction

/-- Embedding of the split polyhedra built by
`generating_function_of_polyhedron` when `split=True`: for a permutation
`π` of the `d` coordinates (the source iterates over `Permutations(d)`),
the piece is cut out by the inequalities `x_{π(k)} ≤ x_{π(k+1)}` when
`π(k) < π(k+1)` and `x_{π(k)} < x_{π(k+1)}` otherwise (the source sets the
constant coefficient to `-1` exactly when `a > b`). -/
def piece (d : ℕ) (π : Equiv.Perm (Fin d)) (x : Fin d → ℕ) : Prop :=
  ∀ k : ℕ, ∀ hk : k < d - 1,
    let a := π ⟨k, by omega⟩
    let b := π ⟨k + 1, by omega⟩
    if a < b then x a ≤ x b else x a < x b

instance piece_decidable (d : ℕ) (π : Equiv.Perm (Fin d)) (x : Fin d → ℕ) :
    Decidable (piece d π x) := by
  unfold piece
  exact Nat.decidableBallLT _ _

/-- Modelled from the spec: the docstring of
`generating_function_of_polyhedron` defines its result as "the generating
function of the integer points of the polyhedron's orthant with only
nonnegative coordinates"; the `omega` module computing it is not under
`src/`.  A set of lattice points is therefore modelled by its generating
function as a formal power series, i.e. the coefficient function on exponent
vectors. -/
def genFn (d : ℕ) (P : (Fin d → ℕ) → Prop) [DecidablePred P] :
    (Fin d → ℕ) → ℤ :=
  fun x => if P x then 1 else 0

/-- The sorting key under which `piece π` means that `π` enumerates the
coordinates in increasing order: value first, index as tie-break. -/
def sortKey (d : ℕ) (x : Fin d → ℕ) (i : Fin d) : ℕ ×ₗ ℕ :=
  toLex (x i, (i : ℕ))

theorem sortKey_injective (d : ℕ) (x : Fin d → ℕ) :
    Function.Injective (sortKey d x) := by
  intro i j hij
  rw [sortKey, sortKey] at hij
  have h2 := congrArg (fun p : ℕ ×ₗ ℕ => (ofLex p).2) hij
  exact Fin.ext h2

theorem sortKey_lt_iff (d : ℕ) (x : Fin d → ℕ) (a b : Fin d) (hab : a ≠ b) :
    (sortKey d x a < sortKey d x b
      ↔ if a < b then x a ≤ x b else x a < x b) := by
  rw [sortKey, sortKey, Prod.Lex.lt_iff]
  by_cases h : a < b
  · rw [if_pos h]
    constructor
    · rintro (hlt | ⟨hEq, -⟩)
      · exact le_of_lt hlt
      · exact le_of_eq hEq
    · intro hle
      rcases lt_or_eq_of_le hle with hlt | hEq
      · exact Or.inl hlt
      · exact Or.inr ⟨hEq, by exact_mod_cast h⟩
  · rw [if_neg h]
    have hba : (b : ℕ) < (a : ℕ) := by
      have : b < a := lt_of_le_of_ne (le_of_not_lt h) (Ne.symm hab)
      exact_mod_cast this
    constructor
    · rintro (hlt | ⟨-, hlt2⟩)
      · exact hlt
      · omega
    · intro hlt
      exact Or.inl hlt

theorem piece_iff_strictMono (n : ℕ) (π : Equiv.Perm (Fin (n + 1)))
    (x : Fin (n + 1) → ℕ) :
    piece (n + 1) π x ↔ StrictMono (sortKey (n + 1) x ∘ π) := by
  rw [Fin.strictMono_iff_lt_succ]
  constructor
  · intro hp i
    have hk : (i : ℕ) < n + 1 - 1 := by omega
    have h := hp i hk
    have ha : (⟨(i : ℕ), by omega⟩ : Fin (n + 1)) = i.castSucc :=
      Fin.ext rfl
    have hb : (⟨(i : ℕ) + 1, by omega⟩ : Fin (n + 1)) = i.succ :=
      Fin.ext rfl
    rw [ha, hb] at h
    have hne : π i.castSucc ≠ π i.succ := by
      intro hEq
      have := π.injective hEq
      have h2 := congrArg Fin.val this
      simp only [Fin.coe_castSucc, Fin.val_succ] at h2
      omega
    exact (sortKey_lt_iff (n + 1) x (π i.castSucc) (π i.succ) hne).mpr h
  · intro hs k hk
    have ha : (⟨k, by omega⟩ : Fin (n + 1))
        = (⟨k, by omega⟩ : Fin n).castSucc := Fin.ext rfl
    have hb : (⟨k + 1, by omega⟩ : Fin (n + 1))
        = (⟨k, by omega⟩ : Fin n).succ := Fin.ext rfl
    have h := hs (⟨k, by omega⟩ : Fin n)
    have hne : π ((⟨k, by omega⟩ : Fin n).castSucc)
        ≠ π ((⟨k, by omega⟩ : Fin n).succ) := by
      intro hEq
      have := π.injective hEq
      have h2 := congrArg Fin.val this
      simp only [Fin.coe_castSucc, Fin.val_succ] at h2
      omega
    have h3 := (sortKey_lt_iff (n + 1) x _ _ hne).mp h
    rw [ha, hb]
    exact h3

theorem piece_exists_unique (n : ℕ) (x : Fin (n + 1) → ℕ) :
    ∃! π : Equiv.Perm (Fin (n + 1)), piece (n + 1) π x := by
  refine ⟨Tuple.sort (sortKey (n + 1) x), ?_, ?_⟩
  · show piece (n + 1) (Tuple.sort (sortKey (n + 1) x)) x
    rw [piece_iff_strictMono]
    exact (Tuple.monotone_sort (sortKey (n + 1) x)).strictMono_of_injective
      ((sortKey_injective (n + 1) x).comp (Equiv.injective _))
  · intro σ hσ
    have hσ2 := ((piece_iff_strictMono n σ x).mp hσ).monotone
    have hτ2 := (Tuple.monotone_sort (sortKey (n + 1) x))
    have hEq := Tuple.unique_monotone hσ2 hτ2
    apply Equiv.ext
    intro i
    exact sortKey_injective (n + 1) x (congrFun hEq i)

/-- C7: for ambient dimension at least 2, summing the generating functions
of the pieces `P ∩ piece(π)` over all permutations `π` (the `split=True`
computation) yields the generating function of `P` itself (the value of the
`split=False` computation): the pieces partition the nonnegative orthant. -/
theorem split_sum_eq (d : ℕ) (hd : 2 ≤ d) (P : (Fin d → ℕ) → Prop)
    [DecidablePred P] :
    (∑ π : Equiv.Perm (Fin d), genFn d (fun x => P x ∧ piece d π x))
      = genFn d P := by
  obtain ⟨n, rfl⟩ : ∃ n, d = n + 1 := ⟨d - 1, by omega⟩
  funext x
  rw [Finset.sum_apply]
  by_cases hP : P x
  · obtain ⟨π₀, hπ₀, huniq⟩ := piece_exists_unique n x
    have hzero : ∀ σ ∈ (Finset.univ : Finset (Equiv.Perm (Fin (n + 1)))),
        σ ≠ π₀ → genFn (n + 1) (fun y => P y ∧ piece (n + 1) σ y) x = 0 := by
      intro σ _ hσ
      rw [genFn, if_neg]
      rintro ⟨-, hp⟩
      exact hσ (huniq σ hp)
    rw [Finset.sum_eq_single_of_mem π₀ (Finset.mem_univ π₀) hzero]
    rw [genFn, genFn, if_pos ⟨hP, hπ₀⟩, if_pos hP]
  · have hzero : ∀ σ ∈ (Finset.univ : Finset (Equiv.Perm (Fin (n + 1)))),
        genFn (n + 1) (fun y => P y ∧ piece (n + 1) σ y) x = 0 := by
      intro σ _
      rw [genFn, if_neg]
      rintro ⟨hp, -⟩
      exact hP hp
    rw [Finset.sum_congr rfl hzero, Finset.sum_const, smul_zero, genFn,
      if_neg hP]

/-- Witness for C7 at dimension 2 with the full orthant. -/
theorem split_sum_eq_witness :
    (∑ π : Equiv.Perm (Fin 2),
        genFn 2 (fun x => (0 ≤ x 0 ∧ 0 ≤ x 1) ∧ piece 2 π x))
      = genFn 2 (fun x => 0 ≤ x 0 ∧ 0 ≤ x 1) :=
  split_sum_eq 2 (le_refl 2) (fun x => 0 ≤ x 0 ∧ 0 ≤ x 1)

end GeneratingFunction
